import Mathlib

/-!
Verification of the phylodist histogram engine (`phylodist/histogram.py`).

The development shallowly embeds the source module: pandas data frames become
explicit Lean structures (row index, column labels, cells), Python dictionaries
become association lists in iteration order, raised exceptions become values of
an error type carried by `Except`, and floating point percentages are modelled
exactly by rational numbers.  Two complementary embeddings appear below:

* a functional model (`groupCounts`, `mergeAcrossSamples`, ...) for the
  value-level behaviour of the operations, and
* a store model (`Store`, `storeMergeAcrossSamples`, ...) that tracks which
  data-frame objects each operation allocates or writes, used for the
  frame (no caller-visible mutation) properties.
-/

namespace Phylodist

/-- Modelled from the spec: the fixed ordered taxonomy hierarchy constant
`phylodist.constants.TAXONOMY_HIERARCHY`.  The module `phylodist/constants.py`
is not among the provided sources; the spec describes the constant as the
fixed ordered list of classification level names, coarsest to finest
(domain, phylum, class, ..., species). -/
def TAXONOMY_HIERARCHY : List String :=
  ["domain", "phylum", "class", "order", "family", "genus", "species"]

/-- Python exceptions raised (directly or via pandas) by the module. -/
inductive PyError where
| typeError (msg : String)
| valueError (msg : String)
| attributeError (msg : String)
| indexError (msg : String)
| libraryError (msg : String)
deriving DecidableEq

/-- A Python value passed where a dict is expected: either an actual dict
(entries listed in iteration order) or some other, non-dict value. -/
inductive PyVal (α β : Type) where
| dict (entries : List (String × α))
| other (val : β)

/-- Embedding of `validateSampleDictTaxHistDict` (histogram.py lines 66-83):
raise `TypeError` when the argument is not a dict, `ValueError` when it has
fewer than one entry, and return `None` otherwise. -/
def validateSampleDictTaxHistDict {α β : Type} (sampleDictTaxHistDict : PyVal α β) :
    Except PyError Unit :=
  match sampleDictTaxHistDict with
  | .other _ => .error (.typeError "argument sampleDictTaxHistDict should be a dict")
  | .dict entries =>
    if entries.length < 1 then
      .error (.valueError "argument sampleDictTaxHistDict must have at least one entry")
    else
      .ok ()

/-! ## Single sample histogram computation (`computeAll`, lines 10-37)

A phylodist data frame is a list of records; each record carries one value
per taxonomy hierarchy column (coarsest first).  The cell type is a
parameter `α` with a linear order (the sources hold strings; the order is
only used where pandas sorts group keys). -/

/-- Grouping keys of `phylodistDataFrame.groupby(TAXONOMY_HIERARCHY[0:i+1])`:
the tuple of the first `i+1` taxonomy values of each record. -/
def levelKeys {α : Type} (records : List (List α)) (i : ℕ) : List (List α) :=
  records.map (fun r => r.take (i + 1))

/-- Number of occurrences of a grouping key. -/
def countKey {K : Type} [LinearOrder K] (keys : List K) (k : K) : ℕ :=
  keys.count k

/-- Embedding of `groupby(...).size()` (lines 27-29): the distinct grouping
keys, sorted ascending (pandas groups with `sort=True`), each paired with the
number of records carrying that key. -/
def groupCounts {K : Type} [LinearOrder K] (keys : List K) : List (K × ℕ) :=
  ((keys.insertionSort (fun a b => a ≤ b)).dedup).map (fun k => (k, countKey keys k))

/-- Contract of the `.sort` call on the count column with descending order (line 31) on the grouped
table.  The call uses the pandas default sort kind `quicksort`, which
guarantees only the ordering of the sort key, so the embedding is a relation:
the result is a permutation of the grouped rows whose `count` column is
non-increasing.  Tie order among equal counts is not determined by the
source. -/
def histSortSpec {K : Type} [LinearOrder K] (keys : List K) (h : List (K × ℕ)) : Prop :=
  h.Perm (groupCounts keys) ∧ List.Sorted (fun a b : ℕ => b ≤ a) (h.map Prod.snd)

/-- One admissible result of the count sort: a stable descending sort by
`count`.  Used as an explicit witness that `histSortSpec` is satisfiable. -/
def sortByCountDesc {K : Type} [LinearOrder K] (g : List (K × ℕ)) : List (K × ℕ) :=
  g.insertionSort (fun a b => b.2 ≤ a.2)

/-- Embedding of the `percent` column assignment (lines 33-35): append, to each
row of the sorted count table, `100 * count / float(sum of the count column)`. -/
def addPercent {K : Type} (h : List (K × ℕ)) : List (K × ℕ × ℚ) :=
  h.map (fun r => (r.1, r.2, 100 * (r.2 : ℚ) / (((h.map Prod.snd).sum : ℕ) : ℚ)))

/-- The Level Histogram that `computeAll` stores under the `i`-th taxonomy
level, as a relation (the sort step is the relation `histSortSpec`). -/
def computeAllLevelSpec {α : Type} [LinearOrder α] (records : List (List α)) (i : ℕ)
    (t : List (List α × ℕ × ℚ)) : Prop :=
  ∃ h, histSortSpec (levelKeys records i) h ∧ t = addPercent h

/-- A deterministic admissible run of `computeAll` at level `i` (the count
sort resolved stably). -/
def computeAllLevel {α : Type} [LinearOrder α] (records : List (List α)) (i : ℕ) :
    List (List α × ℕ × ℚ) :=
  addPercent (sortByCountDesc (groupCounts (levelKeys records i)))

/-! ## Cross sample merge (`mergeAcrossSamples`, lines 125-176) -/

/-- A Sample Histogram Set: level name to the histogram table of that level (rows:
key, `count`, `percent`).  The spec states it is always fully populated, so it
is a total function. -/
def HistSet (K : Type) : Type := String → List (K × ℕ × ℚ)

/-- Embedding of the `.drop` of the count column (lines 153-155, 160-162): keep the row
index and the `percent` column. -/
def dropCount {K : Type} (t : List (K × ℕ × ℚ)) : List (K × ℚ) :=
  t.map (fun r => (r.1, r.2.2))

/-- First-match lookup in a keyed row list (the row indexes built by the
module are duplicate-free). -/
def rowLookup {K β : Type} [DecidableEq K] : List (K × β) → K → Option β
| [], _ => none
| p :: ps, k => if p.1 = k then some p.2 else rowLookup ps k

/-- Sorted distinct union of two indexes (the `_outer_indexer` fast path of a
pandas index join when both sides are monotonic). -/
def sortedUnion {K : Type} [LinearOrder K] (x y : List K) : List K :=
  ((x ++ y).insertionSort (fun a b => a ≤ b)).dedup

/-- Embedding of the row-index join performed by
the outer `pd.merge` on both row indexes (lines 167-170), following `Index.join`/`Index.union`
of the pandas this module requires: when both indexes are monotonic the
result is the sorted distinct union; otherwise `Index.union` returns the left
index unchanged only when the right index is empty or the two indexes are
equal, returns the right index when the left is empty, and in every other
case appends the right values missing from the left and sorts the result
(`np.sort` applies even when nothing was appended). -/
def pdIndexJoinOuter {K : Type} [LinearOrder K] (x y : List K) : List K :=
  if List.Sorted (fun a b : K => a ≤ b) x ∧ List.Sorted (fun a b : K => a ≤ b) y then
    sortedUnion x y
  else if y.isEmpty ∨ x = y then x
  else if x.isEmpty then y
  else (x ++ y.filter (fun k => decide (¬ k ∈ x))).insertionSort (fun a b => a ≤ b)

/-- Row-index keys of the per-sample table joined at a level: the keys of the
`percent` table of that sample after `drop`. -/
def tableKeys {K : Type} [LinearOrder K] (lvl : String) (p : String × HistSet K) :
    List K :=
  (dropCount (p.2 lvl)).map Prod.fst

/-- The row index accumulated by the merge loop: the seed index of the first
sample, outer-joined with each subsequent sample index in iteration order. -/
def idxFold {K : Type} [LinearOrder K] (lvl : String) (e : String × HistSet K)
    (rest : List (String × HistSet K)) : List K :=
  rest.foldl (fun a q => pdIndexJoinOuter a (tableKeys lvl q)) (tableKeys lvl e)

/-- The accumulating merged data frame: one column per processed sample
(column label = sample identifier, from the rename of `percent`), rows keyed
by taxonomy key; a `none` cell is a NaN introduced by the outer join. -/
structure MergedTable (K : Type) where
  cols : List String
  rows : List (K × List (Option ℚ))
deriving DecidableEq

/-- The seed of the merge fold (lines 152-158): the table of the first sample with
`count` dropped and `percent` renamed to the sample identifier. -/
def seedTable {K : Type} (s : String) (t : List (K × ℚ)) : MergedTable K :=
  ⟨[s], t.map (fun p => (p.1, [some p.2]))⟩

/-- One iteration of the merge loop (lines 159-170): drop `count`, rename
`percent` to the sample identifier, and outer-join into the accumulator on the
row index.  Rows missing from one side are filled with NaN (`none`). -/
def mergeStep {K : Type} [LinearOrder K] (acc : MergedTable K) (s : String)
    (t : List (K × ℚ)) : MergedTable K :=
  { cols := acc.cols ++ [s]
    rows := (pdIndexJoinOuter (acc.rows.map Prod.fst) (t.map Prod.fst)).map (fun k =>
      (k, ((rowLookup acc.rows k).getD (List.replicate acc.cols.length none))
            ++ [rowLookup t k])) }

/-- Embedding of `mergeAcrossSamples` (lines 125-176).  The `verbose` progress
output is a pure side channel and is not modelled.  The unrecognized-level
check (lines 137-140) precedes everything else; then the argument is
validated (line 142); then the samples are folded in iteration order. -/
def mergeAcrossSamples {K β : Type} [LinearOrder K]
    (sampleDictTaxHistDict : PyVal (HistSet K) β) (taxonomyLevel : String) :
    Except PyError (MergedTable K) :=
  if ¬ taxonomyLevel ∈ TAXONOMY_HIERARCHY then
    .error (.valueError ("taxonomy level " ++ taxonomyLevel ++ " is not recognized"))
  else
    match validateSampleDictTaxHistDict sampleDictTaxHistDict, sampleDictTaxHistDict with
    | .error e, _ => .error e
    | .ok _, .other _ =>
      .error (.typeError "argument sampleDictTaxHistDict should be a dict")
    | .ok _, .dict [] =>
      .error (.valueError "argument sampleDictTaxHistDict must have at least one entry")
    | .ok _, .dict (e :: rest) =>
      .ok (rest.foldl (fun acc p => mergeStep acc p.1 (dropCount (p.2 taxonomyLevel)))
            (seedTable e.1 (dropCount (e.2 taxonomyLevel))))

/-- Cell of a merged table in the column at position `j`, row key `k`
(`none` both for a NaN cell and for an absent row). -/
def MergedTable.cell {K : Type} [DecidableEq K] (m : MergedTable K) (j : ℕ) (k : K) :
    Option ℚ :=
  ((rowLookup m.rows k).getD []).getD j none

/-- Position of the first column carrying a given label. -/
def colIdx : List String → String → Option ℕ
| [], _ => none
| c :: cs, s => if c = s then some 0 else (colIdx cs s).map (fun j => j + 1)

/-- Cell of a merged table in the column labelled with sample `s`. -/
def MergedTable.cellBySample {K : Type} [DecidableEq K] (m : MergedTable K) (s : String)
    (k : K) : Option ℚ :=
  match colIdx m.cols s with
  | some j => m.cell j k
  | none => none

/-- Default dict entry used only to state positional access totally. -/
def dfltEntry (K : Type) : String × HistSet K := ("", fun _ => [])

/-! ## Cross level merge with metadata (`mergeAcrossSamplesTaxLevels`, lines 86-122)

At each taxonomy level the merged table is transposed (samples become rows),
left-joined with the metadata frame on the sample index, transposed back, and
its row index is relabelled.  Keys are concretely `List String` here: a list
of length 1 stands for a scalar index entry, a longer list for a tuple entry
(grouping by a one-element column list yields scalars, by a longer list
yields tuples). -/

/-- A sample metadata frame: descriptive columns, rows keyed by sample
identifier.  Cell values are irrelevant to the verified claims and are
modelled as rationals. -/
structure MetaDF where
  mcols : List String
  mrows : List (String × List (Option ℚ))
deriving DecidableEq

/-- The per-level table produced inside `mergeAcrossSamplesTaxLevels`: row
index entries (taxonomy keys, plus metadata column labels appended by the
transposed left join), the index level names, the stray `names` attribute the
code sets on the data-frame object itself (line 117), the sample columns, and
the cells. -/
structure EnrichedTable where
  index : List (List String)
  indexNames : List (Option String)
  dfNames : Option (List String)
  cols : List String
  cells : List (List String × List (Option ℚ))
deriving DecidableEq

/-- Metadata value for sample `s` in metadata column position `j` after a left
join on the sample index (`none` when the sample has no metadata row). -/
def metaCell (md : MetaDF) (s : String) (j : ℕ) : Option ℚ :=
  match rowLookup md.mrows s with
  | some vs => vs.getD j none
  | none => none

/-- One iteration of the level loop of `mergeAcrossSamplesTaxLevels` after the
merge (lines 108-119): transpose so samples become rows, left-join the
metadata frame on the sample index (passing `None` to `pd.merge` raises), and
transpose back, so the metadata column labels are appended to the row index;
then relabel the index: when the first index entry is a tuple, rebuild the
index as a multi-level index (whose level names pandas leaves unset) and
assign the hierarchy name list to the attribute `names` of the data-frame
object; otherwise set the index name to the taxonomy level. -/
def enrichLevel (m : MergedTable (List String)) (meta : Option MetaDF) (lvl : String) :
    Except PyError EnrichedTable :=
  match meta with
  | none => .error (.attributeError "NoneType object has no attribute columns")
  | some md =>
    let idx : List (List String) := m.rows.map Prod.fst ++ md.mcols.map (fun c => [c])
    let cells : List (List String × List (Option ℚ)) :=
      m.rows ++ md.mcols.enum.map (fun p => ([p.2], m.cols.map (fun s => metaCell md s p.1)))
    match idx with
    | [] => .error (.indexError "index 0 is out of bounds for axis 0 with size 0")
    | k :: _ =>
      if 2 ≤ k.length then
        if idx.all (fun k2 => k2.length == k.length) then
          .ok { index := idx
                indexNames := List.replicate k.length none
                dfNames := some (TAXONOMY_HIERARCHY.take k.length)
                cols := m.cols
                cells := cells }
        else
          .error (.libraryError "MultiIndex from_tuples on entries of mixed arity")
      else
        .ok { index := idx
              indexNames := [some lvl]
              dfNames := none
              cols := m.cols
              cells := cells }

/-- The level loop of `mergeAcrossSamplesTaxLevels` over the remaining
hierarchy levels, building the level-keyed result dict in iteration order. -/
def mergeTaxLevelsGo {β : Type} (dict : PyVal (HistSet (List String)) β)
    (meta : Option MetaDF) : List String → Except PyError (List (String × EnrichedTable))
| [] => .ok []
| lvl :: ls => do
  let m ← mergeAcrossSamples dict lvl
  let e ← enrichLevel m meta lvl
  let rest ← mergeTaxLevelsGo dict meta ls
  .ok ((lvl, e) :: rest)

/-- Embedding of `mergeAcrossSamplesTaxLevels` (lines 86-122): validate the
argument (line 99), then merge and enrich every hierarchy level in order.
The line 101 type check only concerns a metadata argument that is neither
`None` nor a data frame, which the `Option MetaDF` embedding cannot express;
`None` passes that check and reaches `pd.merge` unchanged. -/
def mergeAcrossSamplesTaxLevels {β : Type} (sampleDictTaxHistDict : PyVal (HistSet (List String)) β)
    (metadata : Option MetaDF) : Except PyError (List (String × EnrichedTable)) :=
  match validateSampleDictTaxHistDict sampleDictTaxHistDict with
  | .error e => .error e
  | .ok _ => mergeTaxLevelsGo sampleDictTaxHistDict metadata TAXONOMY_HIERARCHY

/-! ## Store model

The frame claims concern mutation of caller-supplied data frames.  Python
data-frame objects live in a store addressed by natural-number references;
pandas operations that return a fresh frame allocate, the single
`inplace=True` rename writes its target reference in place.  Temporaries that
the source never reads again (the transposed frames inside the level loop)
are collapsed into the allocation of their final value; every write below
targets a freshly allocated reference, exactly as in the source. -/

/-- A stored Python data-frame object: either a raw phylodist record frame or
a derived histogram-style frame (columns and keyed rows), or a per-level
enriched table. -/
inductive PObj where
| rawDF (records : List (List String))
| histDF (pcols : List String) (prows : List (List String × List (Option ℚ)))
| enrDF (e : EnrichedTable)
deriving DecidableEq

/-- The object store. -/
abbrev Store : Type := List PObj

/-- Allocate a fresh object, returning its reference. -/
def allocObj (st : Store) (o : PObj) : Store × ℕ :=
  (st ++ [o], st.length)

/-- Read a reference (an absent reference reads as an empty frame). -/
def getObj (st : Store) (r : ℕ) : PObj :=
  List.getD st r (.histDF [] [])

/-- Overwrite the object at a reference in place. -/
def setObj (st : Store) (r : ℕ) (o : PObj) : Store :=
  List.set st r o

/-- Drop the named column of a histogram-style frame (pandas `drop` returns a
copy; the copying is the callers allocating the result). -/
def objDropCol (o : PObj) (c : String) : PObj :=
  match o with
  | .histDF cols rows =>
    .histDF (cols.filter (fun x => !(x == c)))
      (rows.map (fun r => (r.1, ((cols.zip r.2).filter (fun p => !(p.1 == c))).map Prod.snd)))
  | o => o

/-- Rename columns of a histogram-style frame by a mapping. -/
def objRenameCols (o : PObj) (ren : List (String × String)) : PObj :=
  match o with
  | .histDF cols rows => .histDF (cols.map (fun c => (rowLookup ren c).getD c)) rows
  | o => o

/-- Outer merge of two histogram-style frames on their row indexes, following
`pdIndexJoinOuter`; missing rows are NaN-filled. -/
def objMergeOuter (a b : PObj) : PObj :=
  match a, b with
  | .histDF c1 r1, .histDF c2 r2 =>
    .histDF (c1 ++ c2)
      ((pdIndexJoinOuter (r1.map Prod.fst) (r2.map Prod.fst)).map (fun k =>
        (k, ((rowLookup r1 k).getD (List.replicate c1.length none))
              ++ ((rowLookup r2 k).getD (List.replicate c2.length none)))))
  | a, _ => a

/-- Append the `percent` column to a one-column count frame in place of the
percent-column assignment of the source (lines 33-35). -/
def objSetPercent (o : PObj) : PObj :=
  match o with
  | .histDF cols rows =>
    let total : ℚ := (rows.map (fun r => (r.2.getD 0 none).getD 0)).sum
    .histDF (cols ++ ["percent"])
      (rows.map (fun r => (r.1, r.2 ++ [some (100 * ((r.2.getD 0 none).getD 0) / total)])))
  | o => o

/-- Store-level `computeAll` (lines 10-37): read the record frame, then for
each hierarchy level allocate the grouped and sorted count frame and assign
its `percent` column in place (a write to the fresh reference). -/
def storeComputeAll (st : Store) (r : ℕ) : Store × List (String × ℕ) :=
  let records := match getObj st r with
    | .rawDF recs => recs
    | _ => []
  TAXONOMY_HIERARCHY.enum.foldl (fun (acc : Store × List (String × ℕ)) p =>
    let hist := sortByCountDesc (groupCounts (levelKeys records p.1))
    let stref := allocObj acc.1 (.histDF ["count"] (hist.map (fun kc => (kc.1, [some (kc.2 : ℚ)]))))
    let st2 := setObj stref.1 stref.2 (objSetPercent (getObj stref.1 stref.2))
    (st2, acc.2 ++ [(p.2, stref.2)])) (st, [])

/-- Store-level `mergeAcrossSamples` (lines 125-176).  Each sample histogram
set maps level names to references of frames held in the store.  The first
iteration allocates the dropped copy and the renamed copy (line 156 renames
without `inplace`); later iterations allocate the dropped copy, rename it in
place (lines 163-166, a write to the fresh reference), and allocate the
merge result. -/
def storeMergeAcrossSamples (st : Store) (dict : List (String × (String → ℕ)))
    (lvl : String) : Except PyError (Store × ℕ) :=
  if ¬ lvl ∈ TAXONOMY_HIERARCHY then
    .error (.valueError ("taxonomy level " ++ lvl ++ " is not recognized"))
  else
    match dict with
    | [] => .error (.valueError "argument sampleDictTaxHistDict must have at least one entry")
    | e :: rest =>
      let d0 := allocObj st (objDropCol (getObj st (e.2 lvl)) "count")
      let m0 := allocObj d0.1 (objRenameCols (getObj d0.1 d0.2) [("percent", e.1)])
      .ok (rest.foldl (fun acc p =>
        let dr := allocObj acc.1 (objDropCol (getObj acc.1 (p.2 lvl)) "count")
        let st2 := setObj dr.1 dr.2 (objRenameCols (getObj dr.1 dr.2) [("percent", p.1)])
        allocObj st2 (objMergeOuter (getObj st2 acc.2) (getObj st2 dr.2))) m0)

/-- Convert a stored histogram-style frame back to a merged-table value. -/
def toMergedTable (o : PObj) : MergedTable (List String) :=
  match o with
  | .histDF cols rows => ⟨cols, rows⟩
  | _ => ⟨[], []⟩

/-- The store-level level loop of `mergeAcrossSamplesTaxLevels`. -/
def storeMergeTaxGo (dict : List (String × (String → ℕ))) (meta : Option MetaDF) :
    List String → Store → Except PyError (Store × List (String × ℕ))
| [], st => .ok (st, [])
| lvl :: ls, st => do
  let p ← storeMergeAcrossSamples st dict lvl
  let e ← enrichLevel (toMergedTable (getObj p.1 p.2)) meta lvl
  let er := allocObj p.1 (.enrDF e)
  let rest ← storeMergeTaxGo dict meta ls er.1
  .ok (rest.1, (lvl, er.2) :: rest.2)

/-- Store-level `mergeAcrossSamplesTaxLevels` (lines 86-122): validate, then
merge and enrich every level, allocating each enriched per-level frame. -/
def storeMergeAcrossSamplesTaxLevels (st : Store) (dict : List (String × (String → ℕ)))
    (meta : Option MetaDF) : Except PyError (Store × List (String × ℕ)) :=
  if dict.length < 1 then
    .error (.valueError "argument sampleDictTaxHistDict must have at least one entry")
  else
    storeMergeTaxGo dict meta TAXONOMY_HIERARCHY st

/-- All references alive in `st` read the same in `st2`: no object a caller
already held was written. -/
def storePreserved (st st2 : Store) : Prop :=
  st.length ≤ st2.length ∧ ∀ i, i < st.length → List.getD st2 i (.histDF [] []) = List.getD st i (.histDF [] [])

/-- Final store of a store-level call, the initial store when the call raised
(an exception propagates before the local result is returned). -/
def exceptStore {γ : Type} (x : Except PyError (Store × γ)) (fallback : Store) : Store :=
  match x with
  | .ok p => p.1
  | .error _ => fallback

/-! ## Basic facts about the grouped counts -/

/-- The counts of the grouped table sum to the number of grouped records. -/
theorem groupCounts_sumCounts {K : Type} [LinearOrder K] (keys : List K) :
    ((groupCounts keys).map Prod.snd).sum = keys.length := by
  unfold groupCounts countKey
  rw [List.map_map]
  have h1 : (Prod.snd ∘ fun k => (k, keys.count k)) = fun k => keys.count k := rfl
  rw [h1]
  have hperm : ((keys.insertionSort (fun a b => a ≤ b)).dedup).Perm keys.dedup :=
    (keys.perm_insertionSort (fun a b => a ≤ b)).dedup
  rw [(hperm.map (fun k => keys.count k)).sum_eq]
  exact List.sum_map_count_dedup_eq_length keys

/-- The grouped keys are exactly the distinct sorted keys. -/
theorem groupCounts_keys {K : Type} [LinearOrder K] (keys : List K) :
    (groupCounts keys).map Prod.fst = (keys.insertionSort (fun a b => a ≤ b)).dedup := by
  unfold groupCounts
  rw [List.map_map]
  exact List.map_id ((keys.insertionSort (fun a b => a ≤ b)).dedup)

/-- The stable descending count sort is one admissible result of the
source sort call. -/
theorem sortByCountDesc_spec {K : Type} [LinearOrder K] (keys : List K) :
    histSortSpec keys (sortByCountDesc (groupCounts keys)) := by
  constructor
  · exact List.perm_insertionSort (fun a b => b.2 ≤ a.2) (groupCounts keys)
  · haveI ht : IsTotal (K × ℕ) (fun a b => b.2 ≤ a.2) := ⟨fun a b => le_total b.2 a.2⟩
    haveI htr : IsTrans (K × ℕ) (fun a b => b.2 ≤ a.2) := ⟨fun _ _ _ h1 h2 => le_trans h2 h1⟩
    have hs := List.sorted_insertionSort (fun a b : K × ℕ => b.2 ≤ a.2) (groupCounts keys)
    rw [List.Sorted, List.pairwise_map]
    exact hs

/-- `computeAllLevel` is an admissible run of `computeAll` at any level. -/
theorem computeAllLevel_spec {α : Type} [LinearOrder α] (records : List (List α)) (i : ℕ) :
    computeAllLevelSpec records i (computeAllLevel records i) :=
  ⟨sortByCountDesc (groupCounts (levelKeys records i)), sortByCountDesc_spec _, rfl⟩

/-- Every row of an admissible sorted count table is a distinct grouping key
with its group size. -/
theorem mem_of_histSortSpec {K : Type} [LinearOrder K] {keys : List K} {h : List (K × ℕ)}
    (hs : histSortSpec keys h) {p : K × ℕ} (hp : p ∈ h) :
    p.1 ∈ keys ∧ p.2 = countKey keys p.1 := by
  have hg : p ∈ groupCounts keys := hs.1.mem_iff.mp hp
  unfold groupCounts at hg
  rcases List.mem_map.mp hg with ⟨k, hk, hpk⟩
  cases hpk
  refine ⟨?_, rfl⟩
  exact (keys.perm_insertionSort (fun a b => a ≤ b)).mem_iff.mp (List.mem_dedup.mp hk)

/-- The keys of an admissible sorted count table are duplicate-free. -/
theorem keysNodup_of_histSortSpec {K : Type} [LinearOrder K] {keys : List K}
    {h : List (K × ℕ)} (hs : histSortSpec keys h) : (h.map Prod.fst).Nodup := by
  have hperm := hs.1.map Prod.fst
  rw [groupCounts_keys] at hperm
  exact hperm.nodup_iff.mpr (List.nodup_dedup _)

/-- The counts of an admissible sorted count table over the level-`i` keys of
a record list sum to the record count. -/
theorem histSortSpec_sum {α : Type} [LinearOrder α] {records : List (List α)} {i : ℕ}
    {h : List (List α × ℕ)} (hs : histSortSpec (levelKeys records i) h) :
    (h.map Prod.snd).sum = records.length := by
  rw [(hs.1.map Prod.snd).sum_eq, groupCounts_sumCounts, levelKeys, List.length_map]

/-- The count column of a Level Histogram is the count column of the
underlying sorted count table. -/
theorem addPercent_counts {K : Type} (h : List (K × ℕ)) :
    (addPercent h).map (fun r => r.2.1) = h.map Prod.snd := by
  unfold addPercent
  rw [List.map_map]
  rfl

/-- The percent column of a Level Histogram, explicitly. -/
theorem addPercent_percents {K : Type} (h : List (K × ℕ)) :
    (addPercent h).map (fun r => r.2.2) =
      h.map (fun r => 100 * (r.2 : ℚ) / (((h.map Prod.snd).sum : ℕ) : ℚ)) := by
  unfold addPercent
  rw [List.map_map]
  rfl

/-! ## Claims about `computeAll` -/

/-- Claim C1: For every Sample Table with at least one record and every taxonomy
hierarchy level, the `percent` column of the Level Histogram produced by
`computeAll` sums to exactly 100 (rationals model the float arithmetic, so
the floating-point-tolerance form of the claim holds a fortiori), and every
`percent` entry equals 100 times the row count divided by the total record
count. -/
theorem claim_C1 {α : Type} [LinearOrder α] (records : List (List α)) (i : ℕ)
    (hrec : records ≠ []) (hi : i < TAXONOMY_HIERARCHY.length)
    (t : List (List α × ℕ × ℚ)) (ht : computeAllLevelSpec records i t) :
    (t.map (fun r => r.2.2)).sum = 100 ∧
      ∀ r ∈ t, r.2.2 = 100 * (r.2.1 : ℚ) / (records.length : ℚ) := by
  obtain ⟨h, hs, rfl⟩ := ht
  have hsum : (h.map Prod.snd).sum = records.length := histSortSpec_sum hs
  have hTne : ((records.length : ℕ) : ℚ) ≠ 0 :=
    Nat.cast_ne_zero.mpr (List.length_pos.mpr hrec).ne'
  constructor
  · rw [addPercent_percents, hsum]
    have hterm : (fun r : List α × ℕ => 100 * (r.2 : ℚ) / ((records.length : ℕ) : ℚ)) =
        (fun r : List α × ℕ => ((r.2 : ℚ)) * (100 / ((records.length : ℕ) : ℚ))) := by
      funext r
      rw [div_eq_mul_inv, div_eq_mul_inv]
      ring
    rw [hterm, List.sum_map_mul_right]
    have hcast : (h.map (fun r : List α × ℕ => ((r.2 : ℚ)))).sum
        = (((h.map Prod.snd).sum : ℕ) : ℚ) := by
      rw [Nat.cast_list_sum, List.map_map]
      rfl
    rw [hcast, hsum, mul_comm]
    exact div_mul_cancel₀ 100 hTne
  · intro r hr
    rcases List.mem_map.mp hr with ⟨q, _, rfl⟩
    show 100 * (q.2 : ℚ) / (((h.map Prod.snd).sum : ℕ) : ℚ) = _
    rw [hsum]

/-- Claim C6: For every Sample Table and every pair of taxonomy hierarchy levels,
the `count` column of each Level Histogram produced by `computeAll` sums to
the total number of records, hence to the same value at every level. -/
theorem claim_C6 {α : Type} [LinearOrder α] (records : List (List α)) (i j : ℕ)
    (hi : i < TAXONOMY_HIERARCHY.length) (hj : j < TAXONOMY_HIERARCHY.length)
    (t u : List (List α × ℕ × ℚ))
    (ht : computeAllLevelSpec records i t) (hu : computeAllLevelSpec records j u) :
    (t.map (fun r => r.2.1)).sum = records.length ∧
      (t.map (fun r => r.2.1)).sum = (u.map (fun r => r.2.1)).sum := by
  obtain ⟨h, hs, rfl⟩ := ht
  obtain ⟨g, gs, rfl⟩ := hu
  rw [addPercent_counts, addPercent_counts, histSortSpec_sum hs, histSortSpec_sum gs]
  exact ⟨rfl, rfl⟩

/-- Claim C7, counterexample to the claim as stated: The source sorts the grouped
table with the pandas default sort kind `quicksort`, which fixes only the
ordering of the `count` key; `histSortSpec` is exactly that guarantee.  The
claim additionally asserts that ties preserve the original grouping order,
i.e. that filtering any admissible result to one count class reproduces the
grouped order — refuted by an admissible result on two tied groups in
reversed order. -/
theorem claim_C7_cex :
    histSortSpec [0, 1] [((1 : ℕ), (1 : ℕ)), (0, 1)] ∧
      ¬ (List.filter (fun r => r.2 == 1) [((1 : ℕ), (1 : ℕ)), (0, 1)] =
          List.filter (fun r => r.2 == 1) (groupCounts [0, 1])) :=
  ⟨⟨by decide, by decide⟩, by decide⟩

/-- Claim C7, amended: For every Sample Table and hierarchy level, the rows of the
Level Histogram produced by `computeAll` are ordered by non-increasing
`count`, and each row pairs a distinct grouping key with its group size; the
order among rows of equal `count` is not specified (the sort kind is the
unstable pandas default). -/
theorem claim_C7_amended {α : Type} [LinearOrder α] (records : List (List α)) (i : ℕ)
    (hi : i < TAXONOMY_HIERARCHY.length)
    (t : List (List α × ℕ × ℚ)) (ht : computeAllLevelSpec records i t) :
    List.Sorted (fun a b : ℕ => b ≤ a) (t.map (fun r => r.2.1)) ∧
      (∀ r ∈ t, r.1 ∈ levelKeys records i ∧ r.2.1 = countKey (levelKeys records i) r.1) ∧
      (t.map (fun r => r.1)).Nodup := by
  obtain ⟨h, hs, rfl⟩ := ht
  refine ⟨?_, ?_, ?_⟩
  · rw [addPercent_counts]
    exact hs.2
  · intro r hr
    rcases List.mem_map.mp hr with ⟨q, hq, rfl⟩
    exact mem_of_histSortSpec hs hq
  · have : (addPercent h).map (fun r => r.1) = h.map Prod.fst := by
      unfold addPercent
      rw [List.map_map]
      rfl
    rw [this]
    exact keysNodup_of_histSortSpec hs

/-! ## Claims about validation and the unrecognized-level guard -/

/-- Claim C4: `validateSampleDictTaxHistDict` raises a `TypeError` on every
non-dict argument, raises a `ValueError` on the empty dict, and returns
normally on every dict with at least one entry. -/
theorem claim_C4 {α β : Type} :
    (∀ b : β, validateSampleDictTaxHistDict (PyVal.other (α := α) b) =
      .error (.typeError "argument sampleDictTaxHistDict should be a dict")) ∧
    (validateSampleDictTaxHistDict (PyVal.dict (α := α) (β := β) []) =
      .error (.valueError "argument sampleDictTaxHistDict must have at least one entry")) ∧
    (∀ (e : String × α) (es : List (String × α)),
      validateSampleDictTaxHistDict (PyVal.dict (β := β) (e :: es)) = .ok ()) :=
  ⟨fun _ => rfl, rfl, fun _ _ => rfl⟩

/-- Witness for C4 at a concrete non-dict, the empty dict, and a one-entry
dict. -/
theorem claim_C4_witness :
    validateSampleDictTaxHistDict (PyVal.other (α := Unit) (37 : ℕ)) =
      .error (.typeError "argument sampleDictTaxHistDict should be a dict") ∧
    validateSampleDictTaxHistDict (PyVal.dict (α := Unit) (β := ℕ) []) =
      .error (.valueError "argument sampleDictTaxHistDict must have at least one entry") ∧
    validateSampleDictTaxHistDict (PyVal.dict (α := Unit) (β := ℕ) [("s1", ())]) = .ok () :=
  ⟨claim_C4.1 37, claim_C4.2.1, claim_C4.2.2 ("s1", ()) []⟩

/-- Claim C5: `mergeAcrossSamples` on a taxonomy level name outside the hierarchy
fails immediately with the unrecognized-level `ValueError`; the check is the
first statement of the function, so no merge work happens and no table is
returned, whatever the sample dict argument. -/
theorem claim_C5 {K β : Type} [LinearOrder K] (dict : PyVal (HistSet K) β) (lvl : String)
    (hlvl : ¬ lvl ∈ TAXONOMY_HIERARCHY) :
    mergeAcrossSamples dict lvl =
      .error (.valueError ("taxonomy level " ++ lvl ++ " is not recognized")) := by
  unfold mergeAcrossSamples
  rw [if_pos hlvl]

/-- A small concrete sample: three records, two distinct domain keys. -/
def wrec : List (List ℕ) := [[0], [0], [1]]

/-- A concrete empty histogram set, for exercising the guard claims. -/
def wEmptySet : HistSet ℕ := fun _ => []

/-- Witness for C1 at a concrete three-record sample and level 0. -/
theorem claim_C1_witness :
    ((computeAllLevel wrec 0).map (fun r => r.2.2)).sum = 100 ∧
      ∀ r ∈ computeAllLevel wrec 0, r.2.2 = 100 * (r.2.1 : ℚ) / (wrec.length : ℚ) :=
  claim_C1 wrec 0 (by decide) (by decide) (computeAllLevel wrec 0) (computeAllLevel_spec wrec 0)

/-- Witness for C6 at a concrete sample and levels 0 and 1. -/
theorem claim_C6_witness :
    ((computeAllLevel wrec 0).map (fun r => r.2.1)).sum = wrec.length ∧
      ((computeAllLevel wrec 0).map (fun r => r.2.1)).sum =
        ((computeAllLevel wrec 1).map (fun r => r.2.1)).sum :=
  claim_C6 wrec 0 1 (by decide) (by decide) (computeAllLevel wrec 0) (computeAllLevel wrec 1)
    (computeAllLevel_spec wrec 0) (computeAllLevel_spec wrec 1)

/-- Witness for the amended C7 at a concrete sample and level 0. -/
theorem claim_C7_amended_witness :
    List.Sorted (fun a b : ℕ => b ≤ a) ((computeAllLevel wrec 0).map (fun r => r.2.1)) ∧
      (∀ r ∈ computeAllLevel wrec 0,
        r.1 ∈ levelKeys wrec 0 ∧ r.2.1 = countKey (levelKeys wrec 0) r.1) ∧
      ((computeAllLevel wrec 0).map (fun r => r.1)).Nodup :=
  claim_C7_amended wrec 0 (by decide) (computeAllLevel wrec 0) (computeAllLevel_spec wrec 0)

/-- Witness for C5: an unrecognized level name fails on a concrete dict. -/
theorem claim_C5_witness :
    mergeAcrossSamples (β := Unit) (.dict [("s1", wEmptySet)]) "strain" =
      .error (.valueError ("taxonomy level " ++ "strain" ++ " is not recognized")) :=
  claim_C5 (.dict [("s1", wEmptySet)]) "strain" (by decide)

/-! ## Lookup and index-join lemmas -/

/-- A lookup misses exactly when the key is absent. -/
theorem rowLookup_eq_none {K β : Type} [DecidableEq K] (t : List (K × β)) (k : K) :
    rowLookup t k = none ↔ ¬ k ∈ t.map Prod.fst := by
  induction t with
  | nil => simp [rowLookup]
  | cons p ps ih =>
    by_cases hp : p.1 = k
    · simp [rowLookup, hp]
    · simp [rowLookup, hp, ih, Ne.symm hp]

/-- A successful lookup returns a member row. -/
theorem rowLookup_mem {K β : Type} [DecidableEq K] {t : List (K × β)} {k : K} {v : β}
    (h : rowLookup t k = some v) : (k, v) ∈ t := by
  induction t with
  | nil => simp [rowLookup] at h
  | cons p ps ih =>
    by_cases hp : p.1 = k
    · rw [rowLookup, if_pos hp] at h
      cases h
      have hkp : (k, p.2) = p := by rw [← hp]
      rw [hkp]
      exact List.mem_cons_self p ps
    · rw [rowLookup, if_neg hp] at h
      exact List.mem_cons_of_mem p (ih h)

/-- Lookup commutes with mapping over the values. -/
theorem rowLookup_map_val {K β γ : Type} [DecidableEq K] (t : List (K × β)) (g : β → γ)
    (k : K) :
    rowLookup (t.map (fun p => (p.1, g p.2))) k = (rowLookup t k).map g := by
  induction t with
  | nil => rfl
  | cons p ps ih =>
    by_cases hp : p.1 = k
    · simp [rowLookup, hp]
    · simp [rowLookup, hp, ih]

/-- Lookup over rows built from an index by a function of the key. -/
theorem rowLookup_map_self {K β : Type} [DecidableEq K] (idx : List K) (f : K → β) (k : K) :
    rowLookup (idx.map (fun x => (x, f x))) k = if k ∈ idx then some (f k) else none := by
  induction idx with
  | nil => rfl
  | cons x xs ih =>
    by_cases hx : x = k
    · subst hx
      simp [rowLookup]
    · simp [rowLookup, hx, ih, Ne.symm hx]

/-- A positional read with a default inside the bounds yields a member. -/
theorem getD_mem_of_lt {A : Type} {l : List A} {j : ℕ} (d : A) (h : j < l.length) :
    l.getD j d ∈ l := by
  rw [List.getD_eq_getElem l d h]
  exact List.getElem_mem h

/-- Reading a replicated default always yields the default. -/
theorem getD_replicate_self {β : Type} (d : β) : ∀ (n j : ℕ), (List.replicate n d).getD j d = d := by
  intro n
  induction n with
  | zero => intro j; rfl
  | succ n ih =>
    intro j
    cases j with
    | zero => rfl
    | succ j => exact ih j

/-- Membership in the sorted distinct union is membership in either index. -/
theorem sortedUnion_mem {K : Type} [LinearOrder K] (x y : List K) (k : K) :
    k ∈ sortedUnion x y ↔ k ∈ x ∨ k ∈ y := by
  unfold sortedUnion
  rw [List.mem_dedup, List.mem_insertionSort, List.mem_append]

/-- The sorted distinct union is sorted. -/
theorem sortedUnion_sorted {K : Type} [LinearOrder K] (x y : List K) :
    List.Sorted (fun a b : K => a ≤ b) (sortedUnion x y) :=
  List.Pairwise.sublist (List.dedup_sublist _)
    (List.sorted_insertionSort (fun a b : K => a ≤ b) (x ++ y))

/-- The sorted distinct union is duplicate-free. -/
theorem sortedUnion_nodup {K : Type} [LinearOrder K] (x y : List K) :
    (sortedUnion x y).Nodup :=
  List.nodup_dedup _

/-- Two sorted duplicate-free lists with the same members are equal. -/
theorem sortedNodup_eq {K : Type} [LinearOrder K] {a b : List K}
    (ha : List.Sorted (fun u v : K => u ≤ v) a) (hna : a.Nodup)
    (hb : List.Sorted (fun u v : K => u ≤ v) b) (hnb : b.Nodup)
    (hm : ∀ k, k ∈ a ↔ k ∈ b) : a = b :=
  List.eq_of_perm_of_sorted ((List.perm_ext_iff_of_nodup hna hnb).mpr hm) ha hb

/-- Sorted distinct union of a sorted duplicate-free list with itself. -/
theorem sortedUnion_idem {K : Type} [LinearOrder K] {x : List K}
    (hx : List.Sorted (fun a b : K => a ≤ b) x) (hnd : x.Nodup) :
    sortedUnion x x = x := by
  refine sortedNodup_eq (sortedUnion_sorted x x) (sortedUnion_nodup x x) hx hnd ?_
  intro k
  rw [sortedUnion_mem]
  tauto

/-- Sorted distinct union with an empty right index. -/
theorem sortedUnion_nil_right {K : Type} [LinearOrder K] {x : List K}
    (hx : List.Sorted (fun a b : K => a ≤ b) x) (hnd : x.Nodup) :
    sortedUnion x [] = x := by
  refine sortedNodup_eq (sortedUnion_sorted x []) (sortedUnion_nodup x []) hx hnd ?_
  intro k
  rw [sortedUnion_mem]
  simp

/-- Sorted distinct union with an empty left index. -/
theorem sortedUnion_nil_left {K : Type} [LinearOrder K] {y : List K}
    (hy : List.Sorted (fun a b : K => a ≤ b) y) (hnd : y.Nodup) :
    sortedUnion [] y = y := by
  refine sortedNodup_eq (sortedUnion_sorted [] y) (sortedUnion_nodup [] y) hy hnd ?_
  intro k
  rw [sortedUnion_mem]
  simp

/-- Joining an index with itself returns it unchanged (the equal-indexes case
of the pandas union). -/
theorem pdIndexJoinOuter_self {K : Type} [LinearOrder K] {x : List K} (hnd : x.Nodup) :
    pdIndexJoinOuter x x = x := by
  unfold pdIndexJoinOuter
  by_cases hs : List.Sorted (fun a b : K => a ≤ b) x
  · rw [if_pos ⟨hs, hs⟩]
    exact sortedUnion_idem hs hnd
  · rw [if_neg (fun h => hs h.1), if_pos (Or.inr rfl)]

/-- Joining with an empty right index returns the left unchanged. -/
theorem pdIndexJoinOuter_nil_right {K : Type} [LinearOrder K] {x : List K} (hnd : x.Nodup) :
    pdIndexJoinOuter x [] = x := by
  unfold pdIndexJoinOuter
  by_cases hs : List.Sorted (fun a b : K => a ≤ b) x
  · rw [if_pos ⟨hs, List.sorted_nil⟩]
    exact sortedUnion_nil_right hs hnd
  · rw [if_neg (fun h => hs h.1),
      if_pos (show ([] : List K).isEmpty = true ∨ x = [] from Or.inl rfl)]

/-- Joining from an empty left index returns the right unchanged. -/
theorem pdIndexJoinOuter_nil_left {K : Type} [LinearOrder K] {y : List K} (hnd : y.Nodup) :
    pdIndexJoinOuter [] y = y := by
  unfold pdIndexJoinOuter
  by_cases hs : List.Sorted (fun a b : K => a ≤ b) y
  · rw [if_pos ⟨List.sorted_nil, hs⟩]
    exact sortedUnion_nil_left hs hnd
  · have hy : y ≠ [] := by
      rintro rfl
      exact hs List.sorted_nil
    rw [if_neg (fun h => hs h.2), if_neg ?_,
      if_pos (show ([] : List K).isEmpty = true from rfl)]
    rintro (h | h)
    · exact hy (List.isEmpty_iff.mp h)
    · exact hy h.symm

/-- Membership in the embedded outer index join is membership in either
index. -/
theorem pdIndexJoinOuter_mem {K : Type} [LinearOrder K] (x y : List K) (k : K) :
    k ∈ pdIndexJoinOuter x y ↔ k ∈ x ∨ k ∈ y := by
  unfold pdIndexJoinOuter
  by_cases hs : List.Sorted (fun a b : K => a ≤ b) x ∧ List.Sorted (fun a b : K => a ≤ b) y
  · rw [if_pos hs]
    exact sortedUnion_mem x y k
  · rw [if_neg hs]
    by_cases h2 : y.isEmpty ∨ x = y
    · rw [if_pos h2]
      rcases h2 with h2 | h2
      · rw [List.isEmpty_iff] at h2
        subst h2
        simp
      · subst h2
        tauto
    · rw [if_neg h2]
      by_cases h3 : x.isEmpty
      · rw [if_pos h3, List.isEmpty_iff.mp h3]
        simp
      · rw [if_neg h3]
        rw [List.mem_insertionSort, List.mem_append, List.mem_filter]
        constructor
        · rintro (h | ⟨h, _⟩)
          · exact Or.inl h
          · exact Or.inr h
        · rintro (h | h)
          · exact Or.inl h
          · by_cases hx : k ∈ x
            · exact Or.inl hx
            · exact Or.inr ⟨h, by simpa using hx⟩

/-- The row keys of the seed table are the keys of the first sample table. -/
theorem seedTable_keys {K : Type} (s : String) (t : List (K × ℚ)) :
    (seedTable s t).rows.map Prod.fst = t.map Prod.fst := by
  unfold seedTable
  rw [List.map_map]
  rfl

/-- The row keys after one merge iteration are the outer join of the
accumulated keys with the new sample keys. -/
theorem mergeStep_keys {K : Type} [LinearOrder K] (acc : MergedTable K) (s : String)
    (t : List (K × ℚ)) :
    (mergeStep acc s t).rows.map Prod.fst
      = pdIndexJoinOuter (acc.rows.map Prod.fst) (t.map Prod.fst) := by
  show (List.map Prod.fst (List.map _ _)) = _
  rw [List.map_map]
  exact List.map_id _

/-- The row keys of the merge fold are the index fold of the sample keys. -/
theorem mergeFold_keys {K : Type} [LinearOrder K] (lvl : String) :
    ∀ (rest : List (String × HistSet K)) (acc : MergedTable K),
    ((rest.foldl (fun a q => mergeStep a q.1 (dropCount (q.2 lvl))) acc).rows.map Prod.fst)
      = rest.foldl (fun a q => pdIndexJoinOuter a (tableKeys lvl q)) (acc.rows.map Prod.fst) := by
  intro rest
  induction rest with
  | nil => intro acc; rfl
  | cons q rest ih =>
    intro acc
    rw [List.foldl_cons, List.foldl_cons, ih, mergeStep_keys]
    rfl

/-! ## The merge fold invariant -/

/-- What the accumulated merged table looks like after the samples of `L`
have been processed at level `lvl`: one column per sample in order, every
row exactly as long as the column list, row keys the union of the samples
taxonomy keys, and every cell the `percent` value of the corresponding sample
(`none` both for a NaN fill and an absent row). -/
structure MergeInv {K : Type} [LinearOrder K] (L : List (String × HistSet K)) (lvl : String)
    (m : MergedTable K) : Prop where
  colsEq : m.cols = L.map Prod.fst
  valLen : ∀ r ∈ m.rows, r.2.length = L.length
  keyMem : ∀ k, k ∈ m.rows.map Prod.fst ↔ ∃ p ∈ L, k ∈ (dropCount (p.2 lvl)).map Prod.fst
  cellEq : ∀ j, j < L.length → ∀ k,
    m.cell j k = rowLookup (dropCount ((L.getD j (dfltEntry K)).2 lvl)) k

/-- The seed table satisfies the invariant for the singleton sample list. -/
theorem seed_inv {K : Type} [LinearOrder K] (lvl : String) (e : String × HistSet K) :
    MergeInv [e] lvl (seedTable e.1 (dropCount (e.2 lvl))) := by
  refine ⟨rfl, ?_, ?_, ?_⟩
  · intro r hr
    rcases List.mem_map.mp hr with ⟨p, _, rfl⟩
    rfl
  · intro k
    have hkeys : (seedTable e.1 (dropCount (e.2 lvl))).rows.map Prod.fst =
        (dropCount (e.2 lvl)).map Prod.fst := by
      unfold seedTable
      rw [List.map_map]
      rfl
    rw [hkeys]
    constructor
    · intro hk
      exact ⟨e, List.mem_singleton.mpr rfl, hk⟩
    · rintro ⟨p, hp, hk⟩
      rw [List.mem_singleton] at hp
      subst hp
      exact hk
  · intro j hj k
    have hj0 : j = 0 := Nat.lt_one_iff.mp hj
    subst hj0
    have hE : ([e].getD 0 (dfltEntry K)) = e := rfl
    show (((rowLookup ((dropCount (e.2 lvl)).map (fun p => (p.1, [some p.2]))) k).getD []).getD 0 none) = _
    rw [rowLookup_map_val (dropCount (e.2 lvl)) (fun v => [some v]) k, hE]
    cases hv : rowLookup (dropCount (e.2 lvl)) k with
    | none => rfl
    | some v => rfl

/-- One merge iteration extends the invariant by one sample. -/
theorem mergeStep_inv {K : Type} [LinearOrder K] {L : List (String × HistSet K)}
    {lvl : String} {m : MergedTable K} (hinv : MergeInv L lvl m) (p : String × HistSet K) :
    MergeInv (L ++ [p]) lvl (mergeStep m p.1 (dropCount (p.2 lvl))) := by
  have hcolslen : m.cols.length = L.length := by
    rw [hinv.colsEq, List.length_map]
  have hlook : ∀ k, rowLookup (mergeStep m p.1 (dropCount (p.2 lvl))).rows k =
      if k ∈ pdIndexJoinOuter (m.rows.map Prod.fst) ((dropCount (p.2 lvl)).map Prod.fst) then
        some (((rowLookup m.rows k).getD (List.replicate m.cols.length none))
          ++ [rowLookup (dropCount (p.2 lvl)) k])
      else none := by
    intro k
    exact rowLookup_map_self _ _ k
  have hkeysnew : (mergeStep m p.1 (dropCount (p.2 lvl))).rows.map Prod.fst =
      pdIndexJoinOuter (m.rows.map Prod.fst) ((dropCount (p.2 lvl)).map Prod.fst) := by
    show (List.map Prod.fst (List.map _ _)) = _
    rw [List.map_map]
    exact List.map_id _
  have holdlen : ∀ k, ((rowLookup m.rows k).getD (List.replicate m.cols.length none)).length
      = L.length := by
    intro k
    cases hv : rowLookup m.rows k with
    | none => rw [Option.getD_none, List.length_replicate, hcolslen]
    | some vs => exact hinv.valLen (k, vs) (rowLookup_mem hv)
  refine ⟨?_, ?_, ?_, ?_⟩
  · show m.cols ++ [p.1] = _
    rw [hinv.colsEq, List.map_append]
    rfl
  · intro r hr
    rcases List.mem_map.mp hr with ⟨k, _, rfl⟩
    show (((rowLookup m.rows k).getD (List.replicate m.cols.length none))
      ++ [rowLookup (dropCount (p.2 lvl)) k]).length = (L ++ [p]).length
    rw [List.length_append, List.length_append, holdlen k]
    rfl
  · intro k
    rw [hkeysnew, pdIndexJoinOuter_mem, hinv.keyMem]
    constructor
    · rintro (⟨q, hq, hk⟩ | hk)
      · exact ⟨q, List.mem_append_left _ hq, hk⟩
      · exact ⟨p, List.mem_append_right _ (List.mem_singleton.mpr rfl), hk⟩
    · rintro ⟨q, hq, hk⟩
      rcases List.mem_append.mp hq with hq | hq
      · exact Or.inl ⟨q, hq, hk⟩
      · rw [List.mem_singleton] at hq
        subst hq
        exact Or.inr hk
  · intro j hj k
    have hLp : (L ++ [p]).length = L.length + 1 := by
      rw [List.length_append]
      rfl
    show (((rowLookup (mergeStep m p.1 (dropCount (p.2 lvl))).rows k).getD []).getD j none) = _
    rw [hlook k]
    by_cases hk : k ∈ pdIndexJoinOuter (m.rows.map Prod.fst) ((dropCount (p.2 lvl)).map Prod.fst)
    · rw [if_pos hk, Option.getD_some]
      by_cases hjL : j < L.length
      · have h1 : j < ((rowLookup m.rows k).getD (List.replicate m.cols.length none)).length := by
          rw [holdlen k]
          exact hjL
        have h2 : j < L.length := hjL
        rw [List.getD_append _ _ _ _ h1, List.getD_append _ _ _ _ h2]
        cases hv : rowLookup m.rows k with
        | some vs =>
          have hcell := hinv.cellEq j hjL k
          have hc : m.cell j k = vs.getD j none := by
            unfold MergedTable.cell
            rw [hv]
            rfl
          show vs.getD j none = _
          rw [← hc, hcell]
        | none =>
          show (List.replicate m.cols.length (none : Option ℚ)).getD j none = _
          rw [getD_replicate_self]
          have hkm : ¬ k ∈ m.rows.map Prod.fst := by
            rw [← rowLookup_eq_none]
            exact hv
          have hnone : ¬ ∃ q ∈ L, k ∈ (dropCount (q.2 lvl)).map Prod.fst := by
            intro hex
            exact hkm ((hinv.keyMem k).mpr hex)
          have hmemL : L.getD j (dfltEntry K) ∈ L := getD_mem_of_lt (dfltEntry K) hjL
          symm
          rw [rowLookup_eq_none]
          intro hkt
          exact hnone ⟨L.getD j (dfltEntry K), hmemL, hkt⟩
      · have hjeq : j = L.length := by
          rw [hLp] at hj
          omega
        subst hjeq
        have h1 : ((rowLookup m.rows k).getD (List.replicate m.cols.length none)).length
            ≤ L.length := le_of_eq (holdlen k)
        rw [List.getD_append_right _ _ _ _ h1, List.getD_append_right _ _ _ _ (le_refl L.length)]
        rw [holdlen k, Nat.sub_self]
        rfl
    · rw [if_neg hk]
      rw [pdIndexJoinOuter_mem] at hk
      push_neg at hk
      show (none : Option ℚ) = _
      by_cases hjL : j < L.length
      · rw [List.getD_append _ _ _ _ hjL]
        have hnone : ¬ ∃ q ∈ L, k ∈ (dropCount (q.2 lvl)).map Prod.fst := by
          intro hex
          exact hk.1 ((hinv.keyMem k).mpr hex)
        have hmemL : L.getD j (dfltEntry K) ∈ L := getD_mem_of_lt (dfltEntry K) hjL
        symm
        rw [rowLookup_eq_none]
        intro hkt
        exact hnone ⟨L.getD j (dfltEntry K), hmemL, hkt⟩
      · have hjeq : j = L.length := by
          rw [hLp] at hj
          omega
        subst hjeq
        rw [List.getD_append_right _ _ _ _ (le_refl L.length), Nat.sub_self]
        show (none : Option ℚ) = rowLookup (dropCount (p.2 lvl)) k
        symm
        rw [rowLookup_eq_none]
        exact hk.2

/-- Folding the remaining samples preserves the invariant. -/
theorem mergeFold_inv {K : Type} [LinearOrder K] (lvl : String) :
    ∀ (rest L0 : List (String × HistSet K)) (acc : MergedTable K), MergeInv L0 lvl acc →
    MergeInv (L0 ++ rest) lvl
      (rest.foldl (fun a q => mergeStep a q.1 (dropCount (q.2 lvl))) acc) := by
  intro rest
  induction rest with
  | nil =>
    intro L0 acc h
    simpa using h
  | cons q rest ih =>
    intro L0 acc h
    have h2 := ih (L0 ++ [q]) _ (mergeStep_inv h q)
    rw [List.append_assoc] at h2
    simpa using h2

/-- On a recognized level and a non-empty dict, `mergeAcrossSamples` returns
a merged table satisfying the invariant, whose row keys are the index fold of
the sample keys. -/
theorem mergeAcrossSamples_ok {K β : Type} [LinearOrder K] (e : String × HistSet K)
    (rest : List (String × HistSet K)) (lvl : String) (hlvl : lvl ∈ TAXONOMY_HIERARCHY) :
    ∃ m, mergeAcrossSamples (β := β) (.dict (e :: rest)) lvl = .ok m ∧
      MergeInv (e :: rest) lvl m ∧ m.rows.map Prod.fst = idxFold lvl e rest := by
  have hval : validateSampleDictTaxHistDict (α := HistSet K) (β := β) (.dict (e :: rest)) =
      .ok () := by
    simp [validateSampleDictTaxHistDict]
  refine ⟨rest.foldl (fun a q => mergeStep a q.1 (dropCount (q.2 lvl)))
    (seedTable e.1 (dropCount (e.2 lvl))), ?_, ?_, ?_⟩
  · unfold mergeAcrossSamples
    rw [if_neg (not_not_intro hlvl), hval]
  · have h := mergeFold_inv lvl rest [e] _ (seed_inv lvl e)
    simpa using h
  · rw [mergeFold_keys lvl rest _, seedTable_keys]
    rfl

/-- Claim C2: On a valid (non-empty) Histogram Collection and a recognized level,
`mergeAcrossSamples` returns a table whose columns are the sample identifiers
in iteration order, whose row-key set is the full outer union of all samples
keys at that level, and whose cell in the column of the `j`-th sample at row
key `k` is exactly the `percent` of that sample for `k` — `none` where the sample
lacks the key. -/
theorem claim_C2 {K β : Type} [LinearOrder K] (L : List (String × HistSet K)) (lvl : String)
    (hlvl : lvl ∈ TAXONOMY_HIERARCHY) (hne : L ≠ []) :
    ∃ m, mergeAcrossSamples (β := β) (.dict L) lvl = .ok m ∧
      m.cols = L.map Prod.fst ∧
      (∀ k, k ∈ m.rows.map Prod.fst ↔ ∃ p ∈ L, k ∈ (dropCount (p.2 lvl)).map Prod.fst) ∧
      (∀ j, j < L.length → ∀ k,
        m.cell j k = rowLookup (dropCount ((L.getD j (dfltEntry K)).2 lvl)) k) := by
  rcases List.exists_cons_of_ne_nil hne with ⟨e, rest, rfl⟩
  rcases mergeAcrossSamples_ok (β := β) e rest lvl hlvl with ⟨m, hm, hinv, _⟩
  exact ⟨m, hm, hinv.colsEq, hinv.keyMem, hinv.cellEq⟩

/-- The two samples of the C2 spec example: categories A, B, C are the keys
0, 1, 2; the first sample has percents 60 and 40 on A and B, the second has
70 and 30 on A and C. -/
def wpA : String × HistSet ℕ := ("s1", fun _ => [(0, 3, 60), (1, 2, 40)])

/-- Second sample of the C2 spec example. -/
def wpB : String × HistSet ℕ := ("s2", fun _ => [(0, 7, 70), (2, 3, 30)])

/-- Witness for C2 at the spec example, together with the literal merged
table: rows A, B, C where A has (60, 70), B has (40, null) and C has
(null, 30). -/
theorem claim_C2_witness :
    (∃ m, mergeAcrossSamples (β := Unit) (.dict [wpA, wpB]) "domain" = .ok m ∧
      m.cols = [wpA, wpB].map Prod.fst ∧
      (∀ k, k ∈ m.rows.map Prod.fst ↔
        ∃ p ∈ [wpA, wpB], k ∈ (dropCount (p.2 "domain")).map Prod.fst) ∧
      (∀ j, j < [wpA, wpB].length → ∀ k,
        m.cell j k = rowLookup (dropCount (([wpA, wpB].getD j (dfltEntry ℕ)).2 "domain")) k)) ∧
    mergeAcrossSamples (β := Unit) (.dict [wpA, wpB]) "domain" =
      .ok ⟨["s1", "s2"],
        [(0, [some 60, some 70]), (1, [some 40, none]), (2, [none, some 30])]⟩ :=
  ⟨claim_C2 [wpA, wpB] "domain" (by decide) (List.cons_ne_nil wpA [wpB]), by rfl⟩

/-! ## Order-independence: column lookup and permutation lemmas -/

/-- The first column position found for a label corresponds to the first dict
entry found for it. -/
theorem colIdx_lookup {A : Type} (dflt : String × A) :
    ∀ (L : List (String × A)) (s : String),
    (rowLookup L s = none ∧ colIdx (L.map Prod.fst) s = none) ∨
    (∃ j, colIdx (L.map Prod.fst) s = some j ∧ j < L.length ∧
      rowLookup L s = some ((L.getD j dflt).2) ∧ (L.getD j dflt).1 = s) := by
  intro L
  induction L with
  | nil => intro s; exact Or.inl ⟨rfl, rfl⟩
  | cons a L ih =>
    intro s
    by_cases ha : a.1 = s
    · refine Or.inr ⟨0, ?_, Nat.succ_pos _, ?_, ha⟩
      · show (if a.1 = s then some 0 else _) = some 0
        rw [if_pos ha]
      · show (if a.1 = s then some a.2 else _) = some a.2
        rw [if_pos ha]
    · rcases ih s with ⟨h1, h2⟩ | ⟨j, h1, h2, h3, h4⟩
      · refine Or.inl ⟨?_, ?_⟩
        · show (if a.1 = s then some a.2 else rowLookup L s) = none
          rw [if_neg ha, h1]
        · show (if a.1 = s then some 0 else (colIdx (L.map Prod.fst) s).map (fun j => j + 1))
            = none
          rw [if_neg ha, h2]
          rfl
      · refine Or.inr ⟨j + 1, ?_, Nat.succ_lt_succ h2, ?_, h4⟩
        · show (if a.1 = s then some 0 else (colIdx (L.map Prod.fst) s).map (fun j => j + 1))
            = some (j + 1)
          rw [if_neg ha, h1]
          rfl
        · show (if a.1 = s then some a.2 else rowLookup L s) = some _
          rw [if_neg ha, h3]
          rfl

/-- A merged table satisfying the invariant answers a by-sample cell query by
looking the sample up in the dict and then the key up in its table. -/
theorem cellBySample_inv {K : Type} [LinearOrder K] {L : List (String × HistSet K)}
    {lvl : String} {m : MergedTable K} (hinv : MergeInv L lvl m) (s : String) (k : K) :
    m.cellBySample s k =
      (match rowLookup L s with
       | some hs => rowLookup (dropCount (hs lvl)) k
       | none => none) := by
  unfold MergedTable.cellBySample
  rw [hinv.colsEq]
  rcases colIdx_lookup (dfltEntry K) L s with ⟨h1, h2⟩ | ⟨j, h1, h2, h3, h4⟩
  · rw [h1, h2]
  · rw [h1, h3]
    exact hinv.cellEq j h2 k

/-- Lookup by key is permutation-invariant when the keys are duplicate-free
(as the keys of a Python dict are). -/
theorem rowLookup_perm {A : Type} {L1 L2 : List (String × A)} (h : L1.Perm L2)
    (hn : (L1.map Prod.fst).Nodup) (s : String) : rowLookup L1 s = rowLookup L2 s := by
  induction h with
  | nil => rfl
  | cons x h ih =>
    by_cases hx : x.1 = s
    · show (if x.1 = s then _ else _) = (if x.1 = s then _ else _)
      rw [if_pos hx, if_pos hx]
    · show (if x.1 = s then _ else _) = (if x.1 = s then _ else _)
      rw [if_neg hx, if_neg hx]
      exact ih (List.Nodup.of_cons hn)
  | swap x y l =>
    have hxy : y.1 ≠ x.1 := by
      rw [List.map_cons, List.map_cons, List.nodup_cons] at hn
      intro hc
      exact hn.1 (hc ▸ List.mem_cons_self x.1 (l.map Prod.fst))
    show (if y.1 = s then some y.2 else if x.1 = s then some x.2 else rowLookup l s)
      = (if x.1 = s then some x.2 else if y.1 = s then some y.2 else rowLookup l s)
    by_cases hy : y.1 = s
    · rw [if_pos hy, if_neg (fun hx => hxy (hy.trans hx.symm)), if_pos hy]
    · rw [if_neg hy]
      by_cases hx : x.1 = s
      · rw [if_pos hx, if_pos hx]
      · rw [if_neg hx, if_neg hx, if_neg hy]
  | trans h1 h2 ih1 ih2 =>
    rw [ih1 hn, ih2 (((h1.map Prod.fst).nodup_iff).mp hn)]

/-- Splitting an existence of a non-empty sample key list over a cons. -/
theorem existsKeyCons {K : Type} [LinearOrder K] (lvl : String) (q : String × HistSet K)
    (rest : List (String × HistSet K)) :
    (∃ p ∈ q :: rest, tableKeys lvl p ≠ []) ↔
      tableKeys lvl q ≠ [] ∨ ∃ p ∈ rest, tableKeys lvl p ≠ [] := by
  constructor
  · rintro ⟨p, hp, hpne⟩
    rcases List.mem_cons.mp hp with rfl | hp
    · exact Or.inl hpne
    · exact Or.inr ⟨p, hp, hpne⟩
  · rintro (h | ⟨p, hp, hpne⟩)
    · exact ⟨q, List.mem_cons_self q rest, h⟩
    · exact ⟨p, List.mem_cons_of_mem q hp, hpne⟩

/-- Uniform collections: when every sample key list is the common list `E` or
empty, the index fold returns `E` as soon as any processed key list is
non-empty, and the empty index otherwise — for every processing order.  This
is the one situation in which the pandas union keeps an unsorted index: every
join step hits the equal-indexes or empty-side case. -/
theorem idxFold_uniform {K : Type} [LinearOrder K] (lvl : String) {E : List K}
    (hEnd : E.Nodup) :
    ∀ (rest : List (String × HistSet K)) (x : List K), (x = E ∨ x = []) →
    (∀ p ∈ rest, tableKeys lvl p = E ∨ tableKeys lvl p = []) →
    rest.foldl (fun a q => pdIndexJoinOuter a (tableKeys lvl q)) x =
      if x ≠ [] ∨ ∃ p ∈ rest, tableKeys lvl p ≠ [] then E else [] := by
  intro rest
  induction rest with
  | nil =>
    intro x hx _
    rcases hx with hx | hx
    · rw [hx]
      by_cases hE : E = []
      · rw [hE]
        simp
      · simp [hE]
    · rw [hx]
      simp
  | cons q rest ih =>
    intro x hx hall
    have hq := hall q (List.mem_cons_self q rest)
    have hrest : ∀ p ∈ rest, tableKeys lvl p = E ∨ tableKeys lvl p = [] :=
      fun p hp => hall p (List.mem_cons_of_mem q hp)
    rw [List.foldl_cons]
    rcases hx with hx | hx
    · rcases hq with hq | hq
      · rw [hx, hq, pdIndexJoinOuter_self hEnd, ih E (Or.inl rfl) hrest]
        refine if_congr ?_ rfl rfl
        rw [existsKeyCons, hq]
        simp
      · rw [hx, hq, pdIndexJoinOuter_nil_right hEnd, ih E (Or.inl rfl) hrest]
        refine if_congr ?_ rfl rfl
        rw [existsKeyCons, hq]
        simp
    · rcases hq with hq | hq
      · rw [hx, hq, pdIndexJoinOuter_nil_left hEnd, ih E (Or.inl rfl) hrest]
        refine if_congr ?_ rfl rfl
        rw [existsKeyCons, hq]
        simp
      · rw [hx, hq, pdIndexJoinOuter_nil_right List.nodup_nil, ih [] (Or.inr rfl) hrest]
        refine if_congr ?_ rfl rfl
        rw [existsKeyCons, hq]
        simp

/-- Invariant of the index fold over the processed samples `P`: the index is
duplicate-free and either every processed key list equals it or is empty (the
uniform situation, where the index may be unsorted), or the index is the
sorted union of all processed keys. -/
def IdxInv {K : Type} [LinearOrder K] (lvl : String) (P : List (String × HistSet K))
    (x : List K) : Prop :=
  x.Nodup ∧
  (((∀ p ∈ P, tableKeys lvl p = x ∨ tableKeys lvl p = []) ∧
      (x ≠ [] → ∃ p ∈ P, tableKeys lvl p = x)) ∨
    (List.Sorted (fun a b : K => a ≤ b) x ∧
      (∀ k, k ∈ x ↔ ∃ p ∈ P, k ∈ tableKeys lvl p)))

/-- In either disjunct of the invariant, the index members are the union of
the processed sample keys. -/
theorem IdxInv_mem {K : Type} [LinearOrder K] {lvl : String}
    {P : List (String × HistSet K)} {x : List K} (h : IdxInv lvl P x) :
    ∀ k, k ∈ x ↔ ∃ p ∈ P, k ∈ tableKeys lvl p := by
  rcases h.2 with ⟨hall, hex⟩ | ⟨_, hm⟩
  · intro k
    constructor
    · intro hk
      by_cases hx : x = []
      · subst hx
        exact absurd hk (List.not_mem_nil k)
      · obtain ⟨p, hp, hpe⟩ := hex hx
        exact ⟨p, hp, by rw [hpe]; exact hk⟩
    · rintro ⟨p, hp, hk⟩
      rcases hall p hp with h | h
      · rw [h] at hk
        exact hk
      · rw [h] at hk
        exact absurd hk (List.not_mem_nil k)
  · exact hm

/-- One join step preserves the index-fold invariant. -/
theorem IdxInv_step {K : Type} [LinearOrder K] {lvl : String}
    {P : List (String × HistSet K)} {x : List K} (h : IdxInv lvl P x)
    (q : String × HistSet K) (hq : (tableKeys lvl q).Nodup) :
    IdxInv lvl (P ++ [q]) (pdIndexJoinOuter x (tableKeys lvl q)) := by
  obtain ⟨hnd, hcase⟩ := h
  have hmem := IdxInv_mem ⟨hnd, hcase⟩
  have hmemq : ∀ k, (k ∈ x ∨ k ∈ tableKeys lvl q) ↔
      ∃ p ∈ P ++ [q], k ∈ tableKeys lvl p := by
    intro k
    constructor
    · rintro (hk | hk)
      · obtain ⟨p, hp, hkp⟩ := (hmem k).mp hk
        exact ⟨p, List.mem_append_left _ hp, hkp⟩
      · exact ⟨q, List.mem_append_right _ (List.mem_singleton.mpr rfl), hk⟩
    · rintro ⟨p, hp, hkp⟩
      rcases List.mem_append.mp hp with hp | hp
      · exact Or.inl ((hmem k).mpr ⟨p, hp, hkp⟩)
      · rw [List.mem_singleton] at hp
        subst hp
        exact Or.inr hkp
  unfold pdIndexJoinOuter
  by_cases h1 : List.Sorted (fun a b : K => a ≤ b) x ∧
      List.Sorted (fun a b : K => a ≤ b) (tableKeys lvl q)
  · rw [if_pos h1]
    refine ⟨sortedUnion_nodup _ _, Or.inr ⟨sortedUnion_sorted _ _, ?_⟩⟩
    intro k
    rw [sortedUnion_mem]
    exact hmemq k
  · rw [if_neg h1]
    by_cases h2 : (tableKeys lvl q).isEmpty ∨ x = tableKeys lvl q
    · rw [if_pos h2]
      have hy2 : tableKeys lvl q = [] ∨ tableKeys lvl q = x := by
        rcases h2 with h2 | h2
        · exact Or.inl (List.isEmpty_iff.mp h2)
        · exact Or.inr h2.symm
      refine ⟨hnd, ?_⟩
      rcases hcase with ⟨hall, hex⟩ | ⟨hs, hm⟩
      · left
        constructor
        · intro p hp
          rcases List.mem_append.mp hp with hp | hp
          · exact hall p hp
          · rw [List.mem_singleton] at hp
            subst hp
            rcases hy2 with h | h
            · exact Or.inr h
            · exact Or.inl h
        · intro hx
          obtain ⟨p, hp, hpe⟩ := hex hx
          exact ⟨p, List.mem_append_left _ hp, hpe⟩
      · right
        refine ⟨hs, ?_⟩
        intro k
        rw [hm k]
        constructor
        · rintro ⟨p, hp, hk⟩
          exact ⟨p, List.mem_append_left _ hp, hk⟩
        · rintro ⟨p, hp, hk⟩
          rcases List.mem_append.mp hp with hp | hp
          · exact ⟨p, hp, hk⟩
          · rw [List.mem_singleton] at hp
            subst hp
            rcases hy2 with h | h
            · rw [h] at hk
              exact absurd hk (List.not_mem_nil k)
            · rw [h] at hk
              exact (hm k).mp hk
    · rw [if_neg h2]
      by_cases h3 : x.isEmpty
      · rw [if_pos h3]
        have hx0 : x = [] := List.isEmpty_iff.mp h3
        subst hx0
        have hallP : ∀ p ∈ P, tableKeys lvl p = [] := by
          intro p hp
          rw [List.eq_nil_iff_forall_not_mem]
          intro k hk
          exact absurd ((hmem k).mpr ⟨p, hp, hk⟩) (List.not_mem_nil k)
        refine ⟨hq, Or.inl ⟨?_, ?_⟩⟩
        · intro p hp
          rcases List.mem_append.mp hp with hp | hp
          · exact Or.inr (hallP p hp)
          · rw [List.mem_singleton] at hp
            subst hp
            exact Or.inl rfl
        · intro _
          exact ⟨q, List.mem_append_right _ (List.mem_singleton.mpr rfl), rfl⟩
      · rw [if_neg h3]
        have hsort := List.sorted_insertionSort (fun a b : K => a ≤ b)
          (x ++ (tableKeys lvl q).filter (fun k => decide (¬ k ∈ x)))
        refine ⟨?_, Or.inr ⟨hsort, ?_⟩⟩
        · rw [(List.perm_insertionSort (fun a b : K => a ≤ b) _).nodup_iff,
            List.nodup_append]
          refine ⟨hnd, List.Nodup.filter _ hq, ?_⟩
          intro a hax haf
          have := (List.mem_filter.mp haf).2
          rw [decide_eq_true_iff] at this
          exact this hax
        · intro k
          rw [List.mem_insertionSort, List.mem_append, List.mem_filter]
          rw [← hmemq k]
          constructor
          · rintro (hk | ⟨hk, _⟩)
            · exact Or.inl hk
            · exact Or.inr hk
          · rintro (hk | hk)
            · exact Or.inl hk
            · by_cases hkx : k ∈ x
              · exact Or.inl hkx
              · exact Or.inr ⟨hk, by simpa using hkx⟩

/-- The index fold preserves the invariant over any sample list. -/
theorem IdxInv_fold {K : Type} [LinearOrder K] (lvl : String) :
    ∀ (rest P : List (String × HistSet K)) (x : List K), IdxInv lvl P x →
    (∀ p ∈ rest, (tableKeys lvl p).Nodup) →
    IdxInv lvl (P ++ rest)
      (rest.foldl (fun a q => pdIndexJoinOuter a (tableKeys lvl q)) x) := by
  intro rest
  induction rest with
  | nil =>
    intro P x h _
    simpa using h
  | cons q rest ih =>
    intro P x h hk
    have h2 := ih (P ++ [q]) _ (IdxInv_step h q (hk q (List.mem_cons_self q rest)))
      (fun p hp => hk p (List.mem_cons_of_mem q hp))
    rw [List.append_assoc] at h2
    simpa using h2

/-- The accumulated merge index is independent of the sample iteration order:
either the collection is uniform and every order yields the common key list,
or some join step sorts and every order yields the sorted union of all keys. -/
theorem idxFold_perm {K : Type} [LinearOrder K] (lvl : String)
    (e1 e2 : String × HistSet K) (r1 r2 : List (String × HistSet K))
    (hperm : (e1 :: r1).Perm (e2 :: r2))
    (hkeys : ∀ p ∈ e1 :: r1, (tableKeys lvl p).Nodup) :
    idxFold lvl e1 r1 = idxFold lvl e2 r2 := by
  have hkeys2 : ∀ p ∈ e2 :: r2, (tableKeys lvl p).Nodup :=
    fun p hp => hkeys p (hperm.mem_iff.mpr hp)
  by_cases hU : ∃ E : List K, ∀ p ∈ e1 :: r1, tableKeys lvl p = E ∨ tableKeys lvl p = []
  · obtain ⟨E, hE⟩ := hU
    have hE2 : ∀ p ∈ e2 :: r2, tableKeys lvl p = E ∨ tableKeys lvl p = [] :=
      fun p hp => hE p (hperm.mem_iff.mpr hp)
    by_cases hne : ∃ p ∈ e1 :: r1, tableKeys lvl p ≠ []
    · obtain ⟨p0, hp0, hp0ne⟩ := hne
      have hp0E : tableKeys lvl p0 = E := (hE p0 hp0).resolve_right hp0ne
      have hEnd : E.Nodup := hp0E ▸ hkeys p0 hp0
      have h1 := idxFold_uniform lvl hEnd r1 (tableKeys lvl e1)
        (hE e1 (List.mem_cons_self e1 r1)) (fun p hp => hE p (List.mem_cons_of_mem e1 hp))
      have h2 := idxFold_uniform lvl hEnd r2 (tableKeys lvl e2)
        (hE2 e2 (List.mem_cons_self e2 r2)) (fun p hp => hE2 p (List.mem_cons_of_mem e2 hp))
      have hc1 : tableKeys lvl e1 ≠ [] ∨ ∃ p ∈ r1, tableKeys lvl p ≠ [] :=
        (existsKeyCons lvl e1 r1).mp ⟨p0, hp0, hp0ne⟩
      have hc2 : tableKeys lvl e2 ≠ [] ∨ ∃ p ∈ r2, tableKeys lvl p ≠ [] :=
        (existsKeyCons lvl e2 r2).mp ⟨p0, hperm.mem_iff.mp hp0, hp0ne⟩
      show idxFold lvl e1 r1 = idxFold lvl e2 r2
      unfold idxFold
      rw [h1, h2, if_pos hc1, if_pos hc2]
    · push_neg at hne
      have hne2 : ∀ p ∈ e2 :: r2, tableKeys lvl p = [] :=
        fun p hp => hne p (hperm.mem_iff.mpr hp)
      have h1 := idxFold_uniform lvl List.nodup_nil r1 (tableKeys lvl e1)
        (Or.inl (hne e1 (List.mem_cons_self e1 r1)))
        (fun p hp => Or.inl (hne p (List.mem_cons_of_mem e1 hp)))
      have h2 := idxFold_uniform lvl List.nodup_nil r2 (tableKeys lvl e2)
        (Or.inl (hne2 e2 (List.mem_cons_self e2 r2)))
        (fun p hp => Or.inl (hne2 p (List.mem_cons_of_mem e2 hp)))
      unfold idxFold
      rw [h1, h2, if_neg ?_, if_neg ?_]
      · rintro (h | ⟨p, hp, hpne⟩)
        · exact h (hne2 e2 (List.mem_cons_self e2 r2))
        · exact hpne (hne2 p (List.mem_cons_of_mem e2 hp))
      · rintro (h | ⟨p, hp, hpne⟩)
        · exact h (hne e1 (List.mem_cons_self e1 r1))
        · exact hpne (hne p (List.mem_cons_of_mem e1 hp))
  · have hU2 : ¬ ∃ E : List K, ∀ p ∈ e2 :: r2, tableKeys lvl p = E ∨ tableKeys lvl p = [] := by
      rintro ⟨E, hE⟩
      exact hU ⟨E, fun p hp => hE p (hperm.mem_iff.mp hp)⟩
    have hI1 : IdxInv lvl (e1 :: r1) (idxFold lvl e1 r1) := by
      have hseed : IdxInv lvl [e1] (tableKeys lvl e1) := by
        refine ⟨hkeys e1 (List.mem_cons_self e1 r1), Or.inl ⟨?_, ?_⟩⟩
        · intro p hp
          rw [List.mem_singleton] at hp
          subst hp
          exact Or.inl rfl
        · intro _
          exact ⟨e1, List.mem_singleton.mpr rfl, rfl⟩
      have h := IdxInv_fold lvl r1 [e1] _ hseed
        (fun p hp => hkeys p (List.mem_cons_of_mem e1 hp))
      simpa using h
    have hI2 : IdxInv lvl (e2 :: r2) (idxFold lvl e2 r2) := by
      have hseed : IdxInv lvl [e2] (tableKeys lvl e2) := by
        refine ⟨hkeys2 e2 (List.mem_cons_self e2 r2), Or.inl ⟨?_, ?_⟩⟩
        · intro p hp
          rw [List.mem_singleton] at hp
          subst hp
          exact Or.inl rfl
        · intro _
          exact ⟨e2, List.mem_singleton.mpr rfl, rfl⟩
      have h := IdxInv_fold lvl r2 [e2] _ hseed
        (fun p hp => hkeys2 p (List.mem_cons_of_mem e2 hp))
      simpa using h
    obtain ⟨hnd1, hc1⟩ := hI1
    obtain ⟨hnd2, hc2⟩ := hI2
    rcases hc1 with ⟨hall1, _⟩ | ⟨hs1, hm1⟩
    · exact absurd ⟨idxFold lvl e1 r1, hall1⟩ hU
    rcases hc2 with ⟨hall2, _⟩ | ⟨hs2, hm2⟩
    · exact absurd ⟨idxFold lvl e2 r2, hall2⟩ hU2
    refine sortedNodup_eq hs1 hnd1 hs2 hnd2 ?_
    intro k
    rw [hm1 k, hm2 k]
    constructor
    · rintro ⟨p, hp, hk⟩
      exact ⟨p, hperm.mem_iff.mp hp, hk⟩
    · rintro ⟨p, hp, hk⟩
      exact ⟨p, hperm.mem_iff.mpr hp, hk⟩

/-- Claim C8: For a valid Histogram Collection (non-empty; sample names
unique, as dict keys are; per-table row keys duplicate-free, as every
`groupby` output is — see `keysNodup_of_histSortSpec`) and a recognized
level, the tables `mergeAcrossSamples` returns for any two iteration orders
of the samples are identical except for the ordering of their columns, which
follows the respective iteration order: the row keys agree as ordered lists
and the column of each sample holds the same value at every row key.  The
row order agrees because every non-monotonic index union is sorted; an
unsorted index survives the merge only when every sample shares one key list
(or is empty), and then every order reproduces that shared list. -/
theorem claim_C8 {K β : Type} [LinearOrder K] (L1 L2 : List (String × HistSet K))
    (lvl : String) (hlvl : lvl ∈ TAXONOMY_HIERARCHY) (hne : L1 ≠ [])
    (hperm : L1.Perm L2) (hnames : (L1.map Prod.fst).Nodup)
    (hkeys : ∀ p ∈ L1, ((dropCount (p.2 lvl)).map Prod.fst).Nodup) :
    ∃ m1 m2, mergeAcrossSamples (β := β) (.dict L1) lvl = .ok m1 ∧
      mergeAcrossSamples (β := β) (.dict L2) lvl = .ok m2 ∧
      m1.cols = L1.map Prod.fst ∧ m2.cols = L2.map Prod.fst ∧
      m1.rows.map Prod.fst = m2.rows.map Prod.fst ∧
      (∀ s k, m1.cellBySample s k = m2.cellBySample s k) := by
  have hne2 : L2 ≠ [] := by
    intro hc
    subst hc
    exact hne (List.Perm.eq_nil hperm)
  rcases List.exists_cons_of_ne_nil hne with ⟨e1, r1, rfl⟩
  rcases List.exists_cons_of_ne_nil hne2 with ⟨e2, r2, h2⟩
  subst h2
  rcases mergeAcrossSamples_ok (β := β) e1 r1 lvl hlvl with ⟨m1, hm1, hinv1, hk1⟩
  rcases mergeAcrossSamples_ok (β := β) e2 r2 lvl hlvl with ⟨m2, hm2, hinv2, hk2⟩
  refine ⟨m1, m2, hm1, hm2, hinv1.colsEq, hinv2.colsEq, ?_, ?_⟩
  · rw [hk1, hk2]
    exact idxFold_perm lvl e1 e2 r1 r2 hperm (fun p hp => hkeys p hp)
  · intro s k
    rw [cellBySample_inv hinv1 s k, cellBySample_inv hinv2 s k,
      rowLookup_perm hperm hnames s]

/-- First sample of the C8 witness: two keys in count-descending,
non-ascending order. -/
def wq1 : String × HistSet ℕ := ("s1", fun _ => [(1, 3, 60), (0, 2, 40)])

/-- Second sample of the C8 witness: a single key contained in the
keys of the first sample (the case in which the pandas union appends nothing
and still sorts). -/
def wq2 : String × HistSet ℕ := ("s2", fun _ => [(0, 5, 100)])

/-- Witness for C8 at a concrete two-sample collection in both iteration
orders. -/
theorem claim_C8_witness :
    ∃ m1 m2, mergeAcrossSamples (β := Unit) (.dict [wq1, wq2]) "domain" = .ok m1 ∧
      mergeAcrossSamples (β := Unit) (.dict [wq2, wq1]) "domain" = .ok m2 ∧
      m1.cols = [wq1, wq2].map Prod.fst ∧ m2.cols = [wq2, wq1].map Prod.fst ∧
      m1.rows.map Prod.fst = m2.rows.map Prod.fst ∧
      (∀ s k, m1.cellBySample s k = m2.cellBySample s k) :=
  claim_C8 [wq1, wq2] [wq2, wq1] "domain" (by decide) (List.cons_ne_nil wq1 [wq2])
    (List.Perm.swap wq2 wq1 []) (by decide) (by decide)

/-! ## Claims about `mergeAcrossSamplesTaxLevels` -/

/-- Claim C10: With the metadata argument omitted (`None`), a valid non-empty
Histogram Collection does not yield an un-enriched result: the `None` passes
the line 101 type check, `pd.merge` is invoked unconditionally at the first
hierarchy level, and the call fails with the exception pandas raises on a
`None` right-hand side. -/
theorem claim_C10 {β : Type} (e : String × HistSet (List String))
    (rest : List (String × HistSet (List String))) :
    mergeAcrossSamplesTaxLevels (β := β) (.dict (e :: rest)) none =
      .error (.attributeError "NoneType object has no attribute columns") := by
  have hval : validateSampleDictTaxHistDict (α := HistSet (List String)) (β := β)
      (.dict (e :: rest)) = .ok () := by
    simp [validateSampleDictTaxHistDict]
  unfold mergeAcrossSamplesTaxLevels
  rw [hval]
  rcases mergeAcrossSamples_ok (β := β) e rest "domain" (by decide) with ⟨m, hm, _⟩
  show mergeTaxLevelsGo (.dict (e :: rest)) none
    ("domain" :: ["phylum", "class", "order", "family", "genus", "species"]) = _
  unfold mergeTaxLevelsGo
  rw [hm]
  rfl

/-- One concrete sample histogram set over the full hierarchy: a single
lineage with two records. -/
def wHistSet3 : HistSet (List String) := fun lvl =>
  if lvl = "domain" then [(["Bacteria"], 2, 100)]
  else if lvl = "phylum" then [(["Bacteria", "Proteobacteria"], 2, 100)]
  else if lvl = "class" then [(["Bacteria", "Proteobacteria", "Gamma"], 2, 100)]
  else if lvl = "order" then [(["Bacteria", "Proteobacteria", "Gamma", "Entb"], 2, 100)]
  else if lvl = "family" then
    [(["Bacteria", "Proteobacteria", "Gamma", "Entb", "EntbF"], 2, 100)]
  else if lvl = "genus" then
    [(["Bacteria", "Proteobacteria", "Gamma", "Entb", "EntbF", "Esch"], 2, 100)]
  else [(["Bacteria", "Proteobacteria", "Gamma", "Entb", "EntbF", "Esch", "Coli"], 2, 100)]

/-- A metadata frame with no columns (so the transposed join appends nothing
to the row index), holding a row for sample s1. -/
def wMeta : MetaDF := ⟨[], [("s1", [])]⟩

/-- Witness for C10 at a concrete one-sample collection. -/
theorem claim_C10_witness :
    mergeAcrossSamplesTaxLevels (β := Unit) (.dict [("s1", wHistSet3)]) none =
      .error (.attributeError "NoneType object has no attribute columns") :=
  claim_C10 ("s1", wHistSet3) []

/-- The enriched table the code produces at level `domain` for the C3 input:
a scalar index correctly labelled with the level name. -/
def wEnrDomain : EnrichedTable :=
  ⟨[["Bacteria"]], [some "domain"], none, ["s1"], [(["Bacteria"], [some 100])]⟩

/-- The enriched table the code produces at level `phylum` for the C3 input:
the multi-level index is built, but its level names stay unset (`none`)
because line 117 assigns the hierarchy name list to the data-frame attribute
`names` instead of to `index.names`. -/
def wEnrPhylum : EnrichedTable :=
  ⟨[["Bacteria", "Proteobacteria"]], [none, none], some ["domain", "phylum"], ["s1"],
    [(["Bacteria", "Proteobacteria"], [some 100])]⟩

/-- Claim C3, bug evaluation: The claim says every tuple-keyed level table comes
back with its index levels labelled by the matching hierarchy-name list.
Running the code on a one-sample collection with empty-column metadata shows
the opposite at level `phylum`: the multi-level index names remain `none`
(pandas default) and the name list lands on the stray data-frame attribute
`names` — the scalar branch (level `domain`) labels its index correctly, so
the intent of line 117 is exactly what the claim states. -/
theorem claim_C3 :
    (mergeAcrossSamplesTaxLevels (β := Unit) (.dict [("s1", wHistSet3)]) (some wMeta)).map
        (fun res => (rowLookup res "domain", rowLookup res "phylum")) =
      .ok (some wEnrDomain, some wEnrPhylum) ∧
    wEnrPhylum.indexNames = [none, none] ∧
    wEnrPhylum.indexNames ≠ [some "domain", some "phylum"] ∧
    wEnrPhylum.dfNames = some ["domain", "phylum"] ∧
    wEnrDomain.indexNames = [some "domain"] :=
  ⟨by rfl, rfl, by decide, rfl, rfl⟩

/-! ## The frame property: no caller-held frame is written -/

/-- Setting one position leaves every other position unchanged. -/
theorem getD_set_ne {A : Type} :
    ∀ (l : List A) (r i : ℕ) (o d : A), i ≠ r → (l.set r o).getD i d = l.getD i d := by
  intro l
  induction l with
  | nil => intro r i o d _; rfl
  | cons a tl ih =>
    intro r i o d hne
    cases r with
    | zero =>
      cases i with
      | zero => exact absurd rfl hne
      | succ j => rfl
    | succ r =>
      cases i with
      | zero => rfl
      | succ j => exact ih r j o d (fun hc => hne (by rw [hc]))

/-- Preservation is reflexive. -/
theorem storePreserved_refl (st : Store) : storePreserved st st :=
  ⟨le_refl _, fun _ _ => rfl⟩

/-- Preservation composes. -/
theorem storePreserved_trans {a b c : Store} (h1 : storePreserved a b)
    (h2 : storePreserved b c) : storePreserved a c :=
  ⟨le_trans h1.1 h2.1, fun i hi => (h2.2 i (lt_of_lt_of_le hi h1.1)).trans (h1.2 i hi)⟩

/-- Allocation preserves every live reference. -/
theorem storePreserved_alloc (st : Store) (o : PObj) : storePreserved st (allocObj st o).1 := by
  constructor
  · show st.length ≤ (st ++ [o]).length
    rw [List.length_append]
    omega
  · intro i hi
    exact List.getD_append st [o] _ i hi

/-- Writing a reference at or beyond the original store extent preserves
every originally live reference. -/
theorem storePreserved_set_ge {st0 st : Store} (h : storePreserved st0 st) (r : ℕ)
    (hr : st0.length ≤ r) (o : PObj) : storePreserved st0 (setObj st r o) := by
  constructor
  · show st0.length ≤ (st.set r o).length
    rw [List.length_set]
    exact h.1
  · intro i hi
    show (st.set r o).getD i _ = _
    rw [getD_set_ne st r i o _ (by omega), h.2 i hi]

/-- A fold whose step preserves the store preserves the store. -/
theorem foldl_storePreserved {γ δ : Type} (f : (Store × γ) → δ → (Store × γ))
    (hf : ∀ acc p, storePreserved acc.1 (f acc p).1) :
    ∀ (ls : List δ) (s0 : Store) (g0 : γ), storePreserved s0 (ls.foldl f (s0, g0)).1 := by
  intro ls
  induction ls with
  | nil => intro s0 g0; exact storePreserved_refl s0
  | cons p ls ih =>
    intro s0 g0
    exact storePreserved_trans (hf (s0, g0) p) (ih (f (s0, g0) p).1 (f (s0, g0) p).2)

/-- `computeAll` allocates its histogram frames and writes only those: every
frame the caller already held is untouched. -/
theorem frame_computeAll (st : Store) (r : ℕ) : storePreserved st (storeComputeAll st r).1 := by
  unfold storeComputeAll
  dsimp only
  refine foldl_storePreserved _ ?_ _ _ _
  intro acc p
  dsimp only
  exact storePreserved_set_ge (storePreserved_alloc acc.1 _) _ (le_of_eq rfl) _

/-- `mergeAcrossSamples` drops into fresh copies, renames only those copies
(in place at freshly allocated references), and allocates every merge result:
no caller-held frame is written. -/
theorem frame_mergeAcrossSamples (st : Store) (dict : List (String × (String → ℕ)))
    (lvl : String) :
    storePreserved st (exceptStore (storeMergeAcrossSamples st dict lvl) st) := by
  unfold storeMergeAcrossSamples
  by_cases hl : ¬ lvl ∈ TAXONOMY_HIERARCHY
  · rw [if_pos hl]
    exact storePreserved_refl st
  · rw [if_neg hl]
    cases dict with
    | nil => exact storePreserved_refl st
    | cons e rest =>
      dsimp only [exceptStore]
      refine storePreserved_trans ?_ (foldl_storePreserved _ ?_ rest _ _)
      · exact storePreserved_trans (storePreserved_alloc st _) (storePreserved_alloc _ _)
      · intro acc p
        dsimp only
        refine storePreserved_trans ?_ (storePreserved_alloc _ _)
        exact storePreserved_set_ge (storePreserved_alloc acc.1 _) _ (le_of_eq rfl) _

/-- Binding a success in the `Except` monad applies the continuation. -/
theorem exceptBind_ok {ε α β : Type} (a : α) (f : α → Except ε β) :
    ((Except.ok a : Except ε α) >>= f) = f a := rfl

/-- Binding a failure in the `Except` monad propagates the failure. -/
theorem exceptBind_error {ε α β : Type} (e : ε) (f : α → Except ε β) :
    ((Except.error e : Except ε α) >>= f) = Except.error e := rfl

/-- The level loop of the cross-level merge preserves every originally live
reference, whether it completes or raises. -/
theorem frame_mergeTaxGo (dict : List (String × (String → ℕ))) (meta : Option MetaDF) :
    ∀ (ls : List String) (st : Store),
    storePreserved st (exceptStore (storeMergeTaxGo dict meta ls st) st) := by
  intro ls
  induction ls with
  | nil => intro st; exact storePreserved_refl st
  | cons lvl ls ih =>
    intro st
    unfold storeMergeTaxGo
    cases hmerge : storeMergeAcrossSamples st dict lvl with
    | error e =>
      rw [exceptBind_error]
      exact storePreserved_refl st
    | ok p =>
      have hp : storePreserved st p.1 := by
        have h := frame_mergeAcrossSamples st dict lvl
        rw [hmerge] at h
        exact h
      rw [exceptBind_ok]
      cases henr : enrichLevel (toMergedTable (getObj p.1 p.2)) meta lvl with
      | error e =>
        rw [exceptBind_error]
        exact storePreserved_refl st
      | ok en =>
        rw [exceptBind_ok]
        dsimp only
        cases hrest : storeMergeTaxGo dict meta ls (allocObj p.1 (.enrDF en)).1 with
        | error e =>
          rw [exceptBind_error]
          exact storePreserved_refl st
        | ok r =>
          rw [exceptBind_ok]
          have hr : storePreserved (allocObj p.1 (.enrDF en)).1 r.1 := by
            have h := ih (allocObj p.1 (.enrDF en)).1
            rw [hrest] at h
            exact h
          exact storePreserved_trans hp
            (storePreserved_trans (storePreserved_alloc p.1 _) hr)

/-- `mergeAcrossSamplesTaxLevels` writes no caller-held frame either. -/
theorem frame_mergeTax (st : Store) (dict : List (String × (String → ℕ)))
    (meta : Option MetaDF) :
    storePreserved st (exceptStore (storeMergeAcrossSamplesTaxLevels st dict meta) st) := by
  unfold storeMergeAcrossSamplesTaxLevels
  by_cases h : dict.length < 1
  · rw [if_pos h]
    exact storePreserved_refl st
  · rw [if_neg h]
    exact frame_mergeTaxGo dict meta TAXONOMY_HIERARCHY st

/-- Claim C9: No operation mutates a caller-supplied data frame: after
`computeAll`, `mergeAcrossSamples` or `mergeAcrossSamplesTaxLevels`, every
object reference that was live before the call reads exactly as before — in
particular each per-sample Level Histogram keeps both its `count` and
`percent` columns, because the in-place rename of the merge loop targets the
freshly allocated copy made by `drop`, never the frame of the caller. -/
theorem claim_C9 :
    (∀ (st : Store) (r : ℕ), storePreserved st (storeComputeAll st r).1) ∧
    (∀ (st : Store) (dict : List (String × (String → ℕ))) (lvl : String),
      storePreserved st (exceptStore (storeMergeAcrossSamples st dict lvl) st)) ∧
    (∀ (st : Store) (dict : List (String × (String → ℕ))) (meta : Option MetaDF),
      storePreserved st (exceptStore (storeMergeAcrossSamplesTaxLevels st dict meta) st)) :=
  ⟨frame_computeAll, frame_mergeAcrossSamples, frame_mergeTax⟩

/-- A concrete two-object store: a histogram frame and a raw record frame. -/
def wStore : Store :=
  [.histDF ["count", "percent"] [(["Bacteria"], [some 2, some 100])], .rawDF [["Bacteria"]]]

/-- Concrete sample-to-reference dict pointing at the histogram frame. -/
def wRefs : List (String × (String → ℕ)) := [("s1", fun _ => 0)]

/-- Witness for C9: on the concrete store, reference 0 reads the same before
and after each of the three operations. -/
theorem claim_C9_witness :
    List.getD (storeComputeAll wStore 1).1 0 (.histDF [] []) =
      List.getD wStore 0 (.histDF [] []) ∧
    List.getD (exceptStore (storeMergeAcrossSamples wStore wRefs "domain") wStore) 0
        (.histDF [] []) = List.getD wStore 0 (.histDF [] []) ∧
    List.getD (exceptStore (storeMergeAcrossSamplesTaxLevels wStore wRefs (some wMeta)) wStore)
        0 (.histDF [] []) = List.getD wStore 0 (.histDF [] []) :=
  ⟨(claim_C9.1 wStore 1).2 0 (by decide),
   (claim_C9.2.1 wStore wRefs "domain").2 0 (by decide),
   (claim_C9.2.2 wStore wRefs (some wMeta)).2 0 (by decide)⟩

end Phylodist
